import Mathlib

/-
  Verification development for the StegoNet steganography core
  (src/unnamed/part_002, the engine `@/lib/steganography`, and
  src/src/lib/crypto.ts).

  Shallow embedding conventions:
  * JavaScript strings (passwords, hashes) are modelled as `List Nat` of
    their code units / UTF-8 bytes (the values `charCodeAt` and
    `TextEncoder.encode` produce).  `TextEncoder`/`TextDecoder` are the
    identity on this representation.
  * `Uint8Array` buffers are `List Nat` with every element `< 256`.
  * The RGBA pixel buffer (`Uint8ClampedArray`) is a total function
    `Nat -> Nat`; index `p * 4 + ch` is channel `ch` of pixel `p`.
  * JavaScript number arithmetic in the PRNG is exact for every value the
    engine manipulates (all intermediates stay below 2 ^ 53), so it is
    modelled with exact `Nat`/`Int` arithmetic; `x % 2 ** 32` becomes
    `% 2 ^ 32` and `Math.floor (next () * max)` becomes `s * max / 2 ^ 32`.
  * The unbounded `while` loop in `generatePixelPositions` is modelled
    with an explicit fuel parameter: `none` means the loop did not finish
    within `fuel` iterations, `some (Except.error e)` models a thrown
    exception and `some (Except.ok l)` a normal return.
  * The WebCrypto primitives used by src/src/lib/crypto.ts
    (`crypto.subtle` AES-GCM and SHA-256) are platform facilities, not
    code of this repository; where a claim depends on them they are taken
    as abstract function parameters whose assumed properties come from
    the spec (see `decryptMessage` below).
-/

set_option maxRecDepth 100000

/-! ## PRNG (class PRNG, src/unnamed/part_002 lines 53-76) -/

/-- JavaScript `ToInt32`: reduce an integer to the range `[-2^31, 2^31)`,
as performed by the bitwise operators `<<` and `&`. -/
def toInt32 (x : Int) : Int := (x + 2 ^ 31) % 2 ^ 32 - 2 ^ 31

/-- One step of the seed-derivation fold in the `PRNG` constructor:
`hash = ((hash << 5) - hash) + char; hash = hash & hash`. -/
def seedStep (h : Int) (c : Nat) : Int := toInt32 (toInt32 (h * 32) - h + c)

/-- `PRNG` constructor: fold `seedStep` over the seed string's code units
starting from 0, then `Math.abs`. -/
def seedFromString (s : List Nat) : Nat := (s.foldl seedStep 0).natAbs

/-- The linear congruential generator state update in `PRNG.next`:
`seed = (seed * 1664525 + 1013904223) % 2^32`. -/
def lcgNext (s : Nat) : Nat := (s * 1664525 + 1013904223) % 2 ^ 32

/-- `PRNG.nextInt(max)` = `Math.floor(next() * max)` where `next()`
returns the updated seed divided by `2^32`; the caller uses the updated
seed afterwards, so this function takes the already-updated seed. -/
def nextIntOf (s max : Nat) : Nat := s * max / 2 ^ 32

/-- Geometric sum `1 + a + ... + a^(n-1)` for the LCG multiplier
`a = 1664525`, used to analyse the period of `lcgNext`. -/
def lcgT : Nat → Nat
  | 0 => 0
  | n + 1 => 1664525 * lcgT n + 1

/-! ## Position scheduler (generatePixelPositions, lines 79-106) -/

/-- The `while (positions.length < bitsNeeded)` loop of
`generatePixelPositions`, as a data refinement of the source state:
`count` mirrors `positions.length`, `used` is the characteristic bitmask
of the `Set<number>` (`used.testBit pos` = `used.has(pos)`,
`used ||| 1 <<< pos` = `used.add(pos)`), and `acc` holds `positions` in
reverse (`pos :: acc` = `positions.push(pos)`), re-reversed on return.
`fuel` bounds the number of loop iterations; `none` means the loop was
still running when fuel ran out. -/
def posLoop (tp target : Nat) : Nat → Nat → Nat → Nat → List Nat → Option (List Nat)
  | 0, _, count, _, acc => if target ≤ count then some acc.reverse else none
  | fuel + 1, seed, count, used, acc =>
    if target ≤ count then some acc.reverse
    else
      let s := lcgNext seed
      let pos := nextIntOf s tp
      if used.testBit pos then posLoop tp target fuel s count used acc
      else posLoop tp target fuel s (count + 1) (used ||| 1 <<< pos) (pos :: acc)

/-- `generatePixelPositions(width, height, dataLength, seed)`:
capacity check `bitsNeeded > totalPixels * 3` throws
"Image too small for data payload", otherwise run the collection loop. -/
def generatePixelPositions (width height dataLength : Nat) (seed : List Nat)
    (fuel : Nat) : Option (Except String (List Nat)) :=
  let totalPixels := width * height
  let bitsNeeded := 32 + dataLength * 8
  if totalPixels * 3 < bitsNeeded then
    some (Except.error "Image too small for data payload")
  else
    (posLoop totalPixels bitsNeeded fuel (seedFromString seed) 0 0 []).map Except.ok

/-! ## Bit-level codec (lines 109-140) -/

/-- `embedBit(pixelValue, bit) = (pixelValue & 0xFE) | bit`. -/
def embedBit (pixelValue bit : Nat) : Nat := (pixelValue &&& 0xFE) ||| bit

/-- `extractBit(pixelValue) = pixelValue & 1`. -/
def extractBit (pixelValue : Nat) : Nat := pixelValue &&& 1

/-- The 8 bits of one byte, most significant first, as pushed by the inner
loop of `dataToBits` (`(byte >> i) & 1` for `i = 7 .. 0`). -/
def byteBits (b : Nat) : List Nat :=
  [b / 128 % 2, b / 64 % 2, b / 32 % 2, b / 16 % 2,
   b / 8 % 2, b / 4 % 2, b / 2 % 2, b % 2]

/-- `dataToBits`: concatenate the MSB-first bits of every byte. -/
def dataToBits : List Nat → List Nat
  | [] => []
  | b :: rest => byteBits b ++ dataToBits rest

/-- Value of one (up to 8 bit) chunk in `bitsToData`: bit `j` of the chunk
contributes `1 << (7 - j)` when it is truthy, so a short final chunk is
zero-padded at the low end. -/
def byteOfBits (bs : List Nat) : Nat :=
  (bs.foldl (fun a b => 2 * a + (if b = 0 then 0 else 1)) 0) * 2 ^ (8 - bs.length)

/-- `bitsToData`: pack bits into `ceil (length / 8)` bytes, 8 bits per
byte, the final shorter chunk zero-padded at the low end. -/
def bitsToData : List Nat → List Nat
  | [] => []
  | b1 :: b2 :: b3 :: b4 :: b5 :: b6 :: b7 :: b8 :: rest =>
    byteOfBits [b1, b2, b3, b4, b5, b6, b7, b8] :: bitsToData rest
  | bs => [byteOfBits bs]

/-! ## Payload framing (embedDataInImage lines 153-208, DataView access) -/

/-- Big-endian bytes of the low 32 bits of `v`, as written by
`DataView.setUint32` and by the explicit shift-and-mask header code. -/
def u32be (v : Nat) : List Nat :=
  [v / 2 ^ 24 % 256, v / 2 ^ 16 % 256, v / 2 ^ 8 % 256, v % 256]

/-- `DataView.getUint32(off)` on a buffer: big-endian read of 4 bytes,
throwing a `RangeError` when fewer than 4 bytes remain. -/
def readU32 (bytes : List Nat) (off : Nat) : Except String Nat :=
  if off + 4 ≤ bytes.length then
    Except.ok (bytes.getD off 0 * 2 ^ 24 + bytes.getD (off + 1) 0 * 2 ^ 16 +
      bytes.getD (off + 2) 0 * 2 ^ 8 + bytes.getD (off + 3) 0)
  else
    Except.error "RangeError"

/-- The result of `encryptMessage` in src/src/lib/crypto.ts: ciphertext,
12-byte IV, 16-byte salt, and the SHA-256 hex digest of the plaintext
(here already in its `TextEncoder.encode` byte form, see `hashBytes` in
`embedDataInImage`). -/
structure EncryptionResult where
  encryptedData : List Nat
  iv : List Nat
  salt : List Nat
  hash : List Nat

/-- The payload layout built by `embedDataInImage` lines 158-186:
`[u32 C][ciphertext][iv 12][salt 16][u32 H][hash]`.  The `Uint8Array.set`
calls are modelled as concatenation, which coincides with the source
whenever `iv.length = 12` and `salt.length = 16` (the only values
`encryptMessage` produces; theorems carry these as hypotheses). -/
def buildPayload (enc : EncryptionResult) : List Nat :=
  u32be enc.encryptedData.length ++ enc.encryptedData ++ enc.iv ++ enc.salt ++
    u32be enc.hash.length ++ enc.hash

/-! ## Embedding (embedDataInImage lines 188-243) -/

/-- Point update of the pixel-buffer function (a `Uint8ClampedArray`
store at an in-range index). -/
def writePix (pixels : Nat → Nat) (idx v : Nat) : Nat → Nat :=
  fun j => if j = idx then v else pixels j

/-- The embedding loop (lines 211-220): bit `i` of `allBits` goes to the
LSB of channel `i % 3` of pixel `positions[i]`.  Bits and positions are
consumed in lockstep; `i` tracks the global bit index for the channel
cycle. -/
def writeBits (pixels : Nat → Nat) : List Nat → List Nat → Nat → (Nat → Nat)
  | [], _, _ => pixels
  | _ :: _, [], _ => pixels
  | bit :: bits, p :: ps, i =>
    let idx := p * 4 + i % 3
    writeBits (writePix pixels idx (embedBit (pixels idx) bit)) bits ps (i + 1)

/-- `embedDataInImage`: build the payload, schedule positions, embed the
32-bit length header followed by the payload bits.  The image decode /
re-encode collaborators are outside the core (spec section 1) and are
elided: the function maps the decoded pixel buffer to the modified one. -/
def embedDataInImage (pixels : Nat → Nat) (width height : Nat)
    (enc : EncryptionResult) (password : List Nat) (fuel : Nat) :
    Option (Except String (Nat → Nat)) :=
  let payload := buildPayload enc
  match generatePixelPositions width height payload.length password fuel with
  | none => none
  | some (Except.error e) => some (Except.error e)
  | some (Except.ok positions) =>
    let lengthBits := dataToBits (u32be payload.length)
    let allBits := lengthBits ++ dataToBits payload
    some (Except.ok (writeBits pixels allBits positions 0))

/-! ## Extraction (extractDataFromImage lines 255-349) -/

/-- The fields of a successful `ExtractionResult`. -/
structure ExtractedData where
  encryptedData : List Nat
  iv : List Nat
  salt : List Nat
  hash : List Nat
deriving DecidableEq

/-- Payload deserialization (lines 307-340).  `Uint8Array.slice` clamps
to the available range (`List.drop/take`), while the two
`DataView.getUint32` reads throw when out of bounds. -/
def parsePayload (payload : List Nat) : Except String ExtractedData :=
  match readU32 payload 0 with
  | Except.error e => Except.error e
  | Except.ok encryptedDataLength =>
    match readU32 payload (32 + encryptedDataLength) with
    | Except.error e => Except.error e
    | Except.ok hashLength =>
      Except.ok
        { encryptedData := (payload.drop 4).take encryptedDataLength
          iv := (payload.drop (4 + encryptedDataLength)).take 12
          salt := (payload.drop (16 + encryptedDataLength)).take 16
          hash := (payload.drop (36 + encryptedDataLength)).take hashLength }

/-- `extractDataFromImage`: schedule 64 positions for a 4-byte length,
keep the first 32, read the length header, re-schedule for the full
payload, read the payload bits (skipping the first 32 positions), pack
and deserialize. -/
def extractDataFromImage (pixels : Nat → Nat) (width height : Nat)
    (password : List Nat) (fuel : Nat) : Option (Except String ExtractedData) :=
  match generatePixelPositions width height 4 password fuel with
  | none => none
  | some (Except.error e) => some (Except.error e)
  | some (Except.ok head64) =>
    let lengthPositions := head64.take 32
    let lengthBits := (List.range 32).map
      (fun i => extractBit (pixels (lengthPositions.getD i 0 * 4 + i % 3)))
    let lengthBytes := bitsToData lengthBits
    let totalLength := lengthBytes.getD 0 0 * 2 ^ 24 + lengthBytes.getD 1 0 * 2 ^ 16 +
      lengthBytes.getD 2 0 * 2 ^ 8 + lengthBytes.getD 3 0
    match generatePixelPositions width height totalLength password fuel with
    | none => none
    | some (Except.error e) => some (Except.error e)
    | some (Except.ok positions) =>
      let payloadBits := (List.range (totalLength * 8)).map
        (fun k => extractBit (pixels (positions.getD (32 + k) 0 * 4 + (32 + k) % 3)))
      some (parsePayload (bitsToData payloadBits))

/-! ## Decryption wrapper (src/src/lib/crypto.ts lines 90-129) -/

/-- The result of `decryptMessage`. -/
structure DecryptionResult where
  decryptedMessage : List Nat
  isValid : Bool
  hash : List Nat
deriving DecidableEq

/-- `decryptMessage`, with the WebCrypto AES-GCM primitive abstracted as
`dec` (arguments: ciphertext, iv, salt, password) and SHA-256 as
`hashFn`.  Modelled from the spec: `crypto.subtle.decrypt` is a platform
primitive that is not part of this repository; per spec section 4.2 it
either returns the plaintext or rejects, and the surrounding `try/catch`
turns a rejection into `{ decryptedMessage: "", isValid: false, hash: "" }`. -/
def decryptMessage (dec : List Nat → List Nat → List Nat → List Nat → Option (List Nat))
    (hashFn : List Nat → List Nat)
    (encryptedData iv salt password expectedHash : List Nat) : DecryptionResult :=
  match dec encryptedData iv salt password with
  | none => { decryptedMessage := [], isValid := false, hash := [] }
  | some m =>
    { decryptedMessage := m
      isValid := hashFn m == expectedHash
      hash := hashFn m }

/-- The data-refinement invariant of `posLoop`: `count` is the number of
collected positions, `used` is their characteristic bitmask, the
positions are pairwise distinct and in `[0, tp)`. -/
def LoopInv (tp count used : Nat) (acc : List Nat) : Prop :=
  count = acc.length ∧ acc.Nodup ∧ (∀ x ∈ acc, x < tp) ∧
    (∀ x, used.testBit x = true ↔ x ∈ acc)

/-- The set of values `nextInt` can ever produce for a given pixel count. -/
def drawSet (tp : Nat) : Finset Nat :=
  (Finset.range (2 ^ 32)).image (fun s => s * tp / 2 ^ 32)

/-! ## Concrete test fixtures for witnesses and counterexamples -/

/-- A 64 x 64 all-white cover image (every RGBA channel 255). -/
def covEx : Nat → Nat := fun _ => 255

/-- The password "P1" as UTF-16 code units. -/
def pwEx : List Nat := [80, 49]

/-- The password "P2" as UTF-16 code units. -/
def pw2Ex : List Nat := [80, 50]

/-- A minimal encryption envelope: empty ciphertext, zero IV and salt,
empty hash string (its payload is 36 zero bytes). -/
def encEx : EncryptionResult :=
  { encryptedData := [], iv := List.replicate 12 0,
    salt := List.replicate 16 0, hash := [] }

/-- The position sequence the scheduler produces for `encEx` on the
64 x 64 image under password "P1" (the evaluated output of
`generatePixelPositions 64 64 36 pwEx 600`; see `psEx_correct`). -/
def psEx : List Nat :=
  [885, 2737, 1829, 1156, 3593, 2386, 1787, 2420, 198, 3559, 1101, 2570, 
   392, 130, 1822, 1104, 142, 3085, 2062, 1282, 1162, 3833, 1715, 2458, 
   3732, 2480, 2791, 2233, 2340, 1294, 1609, 1337, 2408, 3864, 3891, 1055, 
   3625, 56, 608, 439, 2954, 3913, 3214, 1548, 1746, 3728, 333, 3341, 2452, 
   18, 2114, 2701, 1892, 859, 3621, 1645, 1378, 787, 2730, 296, 1755, 3219, 
   165, 1284, 1592, 4034, 413, 3109, 1421, 2415, 537, 1990, 1517, 3703, 
   4054, 2262, 2266, 488, 3907, 3639, 782, 1136, 2395, 225, 3019, 3910, 
   1862, 2607, 2060, 222, 3299, 1157, 1217, 1443, 1931, 2725, 1890, 2793, 
   2628, 3554, 24, 3702, 1195, 3959, 3257, 185, 1492, 3397, 4051, 1051, 86, 
   1585, 789, 1919, 3691, 66, 3673, 3132, 4053, 4093, 3195, 3809, 1741, 
   425, 4076, 2546, 4002, 926, 1798, 68, 3300, 1772, 1293, 2015, 735, 3576, 
   2970, 2422, 2165, 2352, 760, 2846, 417, 2309, 4055, 3956, 3031, 139, 
   1646, 2194, 2014, 3985, 306, 1596, 423, 3938, 3601, 3005, 2792, 720, 
   1534, 3830, 106, 3894, 592, 2294, 1248, 2282, 2498, 1954, 145, 3441, 
   2922, 3448, 3154, 305, 1042, 1448, 443, 3714, 3037, 2971, 1033, 1956, 
   2894, 3595, 3122, 349, 1277, 1658, 1345, 2319, 3108, 55, 2865, 897, 
   1121, 3645, 660, 1438, 2762, 797, 822, 3173, 3249, 583, 1031, 3405, 
   1096, 1501, 2699, 3168, 1897, 2142, 1036, 2375, 2242, 1385, 719, 2190, 
   4004, 2254, 3472, 597, 3772, 1844, 894, 957, 1509, 3990, 2815, 1091, 
   3944, 2259, 1399, 1105, 3290, 655, 1614, 3654, 3045, 3973, 1836, 3882, 
   3217, 2562, 105, 2961, 2964, 1001, 3994, 3641, 3487, 823, 1520, 842, 
   900, 3806, 1076, 2545, 14, 1194, 3269, 1465, 2871, 1573, 2251, 395, 681, 
   2754, 2522, 3223, 725, 2443, 1359, 3414, 147, 2711, 2811, 2461, 2488, 
   383, 2536, 830, 2203, 137, 81, 3820, 1005, 1629, 2644, 1561, 506, 2129, 
   3752, 47, 313, 265, 2633, 3678, 3516, 3182, 609, 2867, 2210, 2170, 3543, 
   3476, 2171, 3043, 3500, 1245, 4026, 1766, 1816, 3371, 1331, 191, 1824, 
   2909]

/-- The header-plus-payload bit stream embedded for `encEx`. -/
def allBitsEx : List Nat :=
  dataToBits (u32be 36) ++ dataToBits (buildPayload encEx)

/-- The stego image: `encEx` embedded into `covEx` under "P1". -/
def pixEx : Nat → Nat := writeBits covEx allBitsEx psEx 0

/-- A concrete instance of the abstract AES-GCM decryption: it
authenticates exactly the envelope produced for `encEx` under "P1"
(empty plaintext), and rejects everything else. -/
def decEx : List Nat → List Nat → List Nat → List Nat → Option (List Nat) :=
  fun ct _ _ pw => if ct = [] ∧ pw = pwEx then some [] else none

/-- A concrete instance of the abstract hash: `encEx` carries the empty
hash, so the hash of the empty message is the empty byte string. -/
def hashEx : List Nat → List Nat := fun _ => []

/-- A decryption oracle that always fails authentication, as AES-GCM
does on every input not produced under the attempted key. -/
def decNone : List Nat → List Nat → List Nat → List Nat → Option (List Nat) :=
  fun _ _ _ _ => none

/-- A syntactically well-formed 36-byte payload whose hash-length field
(5) exceeds the zero bytes remaining after the fixed fields. -/
def overHashPayload : List Nat :=
  u32be 0 ++ List.replicate 12 0 ++ List.replicate 16 0 ++ u32be 5

/-- A 32-byte buffer whose ciphertext-length field (50) exceeds the
remaining buffer. -/
def overCtPayload : List Nat := u32be 50 ++ List.replicate 28 0

/-- A hand-crafted stego image: LSB 1 exactly at the two cells that the
"P1"-seeded header schedule maps to the one-bits of the header value 36,
so extraction under "P1" recovers the all-zero 36-byte payload. -/
def simpleStego : Nat → Nat :=
  fun j => if j = 11166 then 1 else if j = 5178 then 1 else 0

/-- The position sequence for an 8-byte payload on a 16 x 16 image under
password "P1" (evaluated output of `generatePixelPositions 16 16 8 pwEx
500`), used to witness prefix stability. -/
def psC3 : List Nat :=
  match generatePixelPositions 16 16 8 pwEx 500 with
  | some (Except.ok l) => l
  | _ => []

/-! ## Lemmas about the bit codec -/

theorem byteOfBits_byteBits : ∀ b < 256, byteOfBits (byteBits b) = b := by decide

theorem bitsToData_byteBits_append (b : Nat) (rest : List Nat) :
    bitsToData (byteBits b ++ rest) = byteOfBits (byteBits b) :: bitsToData rest := by
  simp only [byteBits, List.cons_append, List.nil_append]
  rfl

theorem bitsToData_dataToBits (data : List Nat) (h : ∀ b ∈ data, b < 256) :
    bitsToData (dataToBits data) = data := by
  induction data with
  | nil => simp [dataToBits, bitsToData]
  | cons b rest ih =>
    have hb : b < 256 := h b (List.mem_cons_self b rest)
    have hrest : ∀ x ∈ rest, x < 256 := fun x hx => h x (List.mem_cons_of_mem b hx)
    rw [dataToBits, bitsToData_byteBits_append, byteOfBits_byteBits b hb, ih hrest]

theorem dataToBits_length (data : List Nat) :
    (dataToBits data).length = 8 * data.length := by
  induction data with
  | nil => simp [dataToBits]
  | cons b rest ih =>
    simp [dataToBits, byteBits, ih]
    omega

theorem dataToBits_le_one (data : List Nat) : ∀ x ∈ dataToBits data, x ≤ 1 := by
  induction data with
  | nil => simp [dataToBits]
  | cons b rest ih =>
    intro x hx
    rw [dataToBits, List.mem_append] at hx
    rcases hx with hx | hx
    · simp [byteBits] at hx
      rcases hx with h | h | h | h | h | h | h | h <;> omega
    · exact ih x hx

/-! ## Small list helpers -/

theorem getD_cons_succ (a : Nat) (l : List Nat) (k d : Nat) :
    (a :: l).getD (k + 1) d = l.getD k d := rfl

theorem getD_mem (l : List Nat) (k d : Nat) (h : k < l.length) : l.getD k d ∈ l := by
  induction l generalizing k with
  | nil => simp at h
  | cons a t ih =>
    cases k with
    | zero => exact List.mem_cons_self a t
    | succ k =>
      rw [getD_cons_succ]
      exact List.mem_cons_of_mem a (ih k (by simpa using Nat.lt_of_succ_lt_succ h))

/-! ## Lemmas about embedBit / extractBit -/

theorem embedBit_mod_two : ∀ v < 256, ∀ b ≤ 1, embedBit v b % 2 = b := by decide

theorem embedBit_div_two : ∀ v < 256, ∀ b ≤ 1, embedBit v b / 2 = v / 2 := by decide

theorem embedBit_lt : ∀ v < 256, ∀ b ≤ 1, embedBit v b < 256 := by decide

theorem extractBit_eq_mod (v : Nat) : extractBit v = v % 2 := Nat.and_one_is_mod v

/-! ## Frame lemmas for the embedding loop -/

theorem writeBits_alpha (bits ps : List Nat) (i0 : Nat) (pixels : Nat → Nat) (j : Nat)
    (hj : j % 4 = 3) : writeBits pixels bits ps i0 j = pixels j := by
  induction bits generalizing ps i0 pixels with
  | nil => rfl
  | cons bit bits ih =>
    cases ps with
    | nil => rfl
    | cons p ps =>
      rw [writeBits, ih]
      have hne : j ≠ p * 4 + i0 % 3 := by
        intro he
        have h3 : i0 % 3 < 3 := Nat.mod_lt i0 (by omega)
        omega
      simp [writePix, hne]

theorem writeBits_keeps_bound (bits ps : List Nat) (i0 : Nat) (pixels : Nat → Nat)
    (hbits : ∀ b ∈ bits, b ≤ 1) (hpix : ∀ x, pixels x < 256) :
    ∀ j, writeBits pixels bits ps i0 j < 256 := by
  induction bits generalizing ps i0 pixels with
  | nil => exact fun j => hpix j
  | cons bit bits ih =>
    cases ps with
    | nil => exact fun j => hpix j
    | cons p ps =>
      intro j
      rw [writeBits]
      refine ih ps (i0 + 1) _ (fun b hb => hbits b (List.mem_cons_of_mem bit hb)) ?_ j
      intro x
      unfold writePix
      by_cases hx : x = p * 4 + i0 % 3
      · simp only [hx, if_pos rfl]
        exact embedBit_lt _ (hpix _) bit (hbits bit (List.mem_cons_self bit bits))
      · simp only [if_neg hx]
        exact hpix x

theorem writeBits_div_two (bits ps : List Nat) (i0 : Nat) (pixels : Nat → Nat)
    (hbits : ∀ b ∈ bits, b ≤ 1) (hpix : ∀ x, pixels x < 256) (j : Nat) :
    writeBits pixels bits ps i0 j / 2 = pixels j / 2 := by
  induction bits generalizing ps i0 pixels with
  | nil => rfl
  | cons bit bits ih =>
    cases ps with
    | nil => rfl
    | cons p ps =>
      rw [writeBits]
      have hb1 : bit ≤ 1 := hbits bit (List.mem_cons_self bit bits)
      have hrest : ∀ b ∈ bits, b ≤ 1 := fun b hb => hbits b (List.mem_cons_of_mem bit hb)
      have hpix2 : ∀ x, writePix pixels (p * 4 + i0 % 3)
          (embedBit (pixels (p * 4 + i0 % 3)) bit) x < 256 := by
        intro x
        unfold writePix
        by_cases hx : x = p * 4 + i0 % 3
        · simp only [hx, if_pos rfl]
          exact embedBit_lt _ (hpix _) bit hb1
        · simp only [if_neg hx]
          exact hpix x
      rw [ih ps (i0 + 1) _ hrest hpix2]
      unfold writePix
      by_cases hx : j = p * 4 + i0 % 3
      · simp only [hx, if_pos rfl]
        exact embedBit_div_two _ (hpix _) bit hb1
      · simp only [if_neg hx]

theorem writeBits_unscheduled (bits ps : List Nat) (i0 : Nat) (pixels : Nat → Nat) (j : Nat)
    (hj : ∀ k, k < bits.length → k < ps.length → j ≠ ps.getD k 0 * 4 + (i0 + k) % 3) :
    writeBits pixels bits ps i0 j = pixels j := by
  induction bits generalizing ps i0 pixels with
  | nil => rfl
  | cons bit bits ih =>
    cases ps with
    | nil => rfl
    | cons p ps =>
      rw [writeBits]
      have hne : j ≠ p * 4 + i0 % 3 := by
        have := hj 0 (by simp) (by simp)
        simpa using this
      rw [ih ps (i0 + 1) _ ?_]
      · simp [writePix, hne]
      · intro k hk1 hk2
        have := hj (k + 1) (by simpa using Nat.succ_lt_succ hk1)
          (by simpa using Nat.succ_lt_succ hk2)
        rw [getD_cons_succ] at this
        have harith : i0 + 1 + k = i0 + (k + 1) := by omega
        rw [harith]
        exact this

theorem writeBits_readback (bits ps : List Nat) (i0 : Nat) (pixels : Nat → Nat) (k : Nat)
    (hk : k < bits.length) (hlen : ps.length = bits.length) (hnd : ps.Nodup)
    (hbits : ∀ b ∈ bits, b ≤ 1) (hpix : ∀ x, pixels x < 256) :
    writeBits pixels bits ps i0 (ps.getD k 0 * 4 + (i0 + k) % 3) % 2 = bits.getD k 0 := by
  induction bits generalizing ps i0 pixels k with
  | nil => simp at hk
  | cons bit bits ih =>
    cases ps with
    | nil => simp at hlen
    | cons p ps =>
      have hb1 : bit ≤ 1 := hbits bit (List.mem_cons_self bit bits)
      have hrest : ∀ b ∈ bits, b ≤ 1 := fun b hb => hbits b (List.mem_cons_of_mem bit hb)
      have hlen2 : ps.length = bits.length := by simpa using hlen
      have hnd2 : ps.Nodup := (List.nodup_cons.mp hnd).2
      have hpmem : p ∉ ps := (List.nodup_cons.mp hnd).1
      have hpix2 : ∀ x, writePix pixels (p * 4 + i0 % 3)
          (embedBit (pixels (p * 4 + i0 % 3)) bit) x < 256 := by
        intro x
        unfold writePix
        by_cases hx : x = p * 4 + i0 % 3
        · simp only [hx, if_pos rfl]
          exact embedBit_lt _ (hpix _) bit hb1
        · simp only [if_neg hx]
          exact hpix x
      cases k with
      | zero =>
        rw [writeBits]
        have hcell : (p :: ps).getD 0 0 * 4 + (i0 + 0) % 3 = p * 4 + i0 % 3 := by
          simp
        rw [hcell]
        rw [writeBits_unscheduled bits ps (i0 + 1) _ (p * 4 + i0 % 3) ?_]
        · simp [writePix, embedBit_mod_two _ (hpix _) bit hb1]
        · intro k2 hk1 hk2
          have hp2 : ps.getD k2 0 ∈ ps := getD_mem ps k2 0 hk2
          have hpne : p ≠ ps.getD k2 0 := fun he => hpmem (he ▸ hp2)
          have h3a : i0 % 3 < 3 := Nat.mod_lt i0 (by omega)
          have h3b : (i0 + 1 + k2) % 3 < 3 := Nat.mod_lt _ (by omega)
          omega
      | succ k =>
        rw [writeBits, getD_cons_succ, getD_cons_succ]
        have harith : i0 + (k + 1) = (i0 + 1) + k := by omega
        rw [harith]
        exact ih ps (i0 + 1) _ k (by simpa using Nat.lt_of_succ_lt_succ hk) hlen2 hnd2
          hrest hpix2

/-! ## Invariants of the position-collection loop -/

theorem loopInv_init (tp : Nat) : LoopInv tp 0 0 [] := by
  refine ⟨rfl, List.nodup_nil, by simp, fun x => ?_⟩
  simp [Nat.zero_testBit]

theorem lcgNext_lt (s : Nat) : lcgNext s < 2 ^ 32 :=
  Nat.mod_lt _ (by norm_num)

theorem nextIntOf_lt (s tp : Nat) (hs : s < 2 ^ 32) (htp : 0 < tp) :
    nextIntOf s tp < tp := by
  unfold nextIntOf
  rw [Nat.div_lt_iff_lt_mul (by norm_num), Nat.mul_comm tp]
  exact Nat.mul_lt_mul_of_pos_right hs htp

theorem loopInv_step (tp count used : Nat) (acc : List Nat) (pos : Nat)
    (hinv : LoopInv tp count used acc) (hpos : pos < tp)
    (hnew : used.testBit pos = false) :
    LoopInv tp (count + 1) (used ||| 1 <<< pos) (pos :: acc) := by
  obtain ⟨hc, hnd, hlt, hbit⟩ := hinv
  have hmem : pos ∉ acc := fun hm => by simp [(hbit pos).mpr hm] at hnew
  refine ⟨by simp [hc], List.nodup_cons.mpr ⟨hmem, hnd⟩, ?_, ?_⟩
  · intro x hx
    rcases List.mem_cons.mp hx with h | h
    · exact h ▸ hpos
    · exact hlt x h
  · intro x
    rw [Nat.testBit_lor, Nat.one_shiftLeft, Nat.testBit_two_pow]
    constructor
    · intro h
      rcases Bool.or_eq_true_iff.mp h with h | h
      · exact List.mem_cons_of_mem pos ((hbit x).mp h)
      · exact (of_decide_eq_true h) ▸ List.mem_cons_self pos acc
    · intro h
      rcases List.mem_cons.mp h with h | h
      · simp [h]
      · simp [(hbit x).mpr h]

/-- On success the loop extends the already collected positions. -/
theorem posLoop_extends (tp target : Nat) :
    ∀ fuel seed count used acc l,
      posLoop tp target fuel seed count used acc = some l →
      ∃ ext, l = acc.reverse ++ ext := by
  intro fuel
  induction fuel with
  | zero =>
    intro seed count used acc l h
    rw [posLoop] at h
    by_cases hc : target ≤ count
    · rw [if_pos hc] at h
      exact ⟨[], by simpa using (Option.some_injective _ h).symm⟩
    · rw [if_neg hc] at h
      exact absurd h (by simp)
  | succ fuel ih =>
    intro seed count used acc l h
    rw [posLoop] at h
    by_cases hc : target ≤ count
    · rw [if_pos hc] at h
      exact ⟨[], by simpa using (Option.some_injective _ h).symm⟩
    · rw [if_neg hc] at h
      simp only at h
      by_cases hb : used.testBit (nextIntOf (lcgNext seed) tp) = true
      · rw [if_pos hb] at h
        exact ih _ _ _ _ _ h
      · rw [if_neg hb] at h
        obtain ⟨ext, he⟩ := ih _ _ _ _ _ h
        exact ⟨nextIntOf (lcgNext seed) tp :: ext, by simpa using he⟩

/-- On success starting from an invariant state with `count ≤ target`,
the result has exactly `target` entries, pairwise distinct, all below
`tp`. -/
theorem posLoop_ok (tp target : Nat) (htp : 0 < tp) :
    ∀ fuel seed count used acc l,
      LoopInv tp count used acc → count ≤ target →
      posLoop tp target fuel seed count used acc = some l →
      l.length = target ∧ l.Nodup ∧ ∀ x ∈ l, x < tp := by
  intro fuel
  induction fuel with
  | zero =>
    intro seed count used acc l hinv hct h
    rw [posLoop] at h
    by_cases hc : target ≤ count
    · rw [if_pos hc] at h
      have hl : l = acc.reverse := (Option.some_injective _ h).symm
      obtain ⟨hcount, hnd, hlt, _⟩ := hinv
      subst hl
      refine ⟨by simp [← hcount]; omega, List.nodup_reverse.mpr hnd, ?_⟩
      intro x hx
      exact hlt x (List.mem_reverse.mp hx)
    · rw [if_neg hc] at h
      exact absurd h (by simp)
  | succ fuel ih =>
    intro seed count used acc l hinv hct h
    rw [posLoop] at h
    by_cases hc : target ≤ count
    · rw [if_pos hc] at h
      have hl : l = acc.reverse := (Option.some_injective _ h).symm
      obtain ⟨hcount, hnd, hlt, _⟩ := hinv
      subst hl
      refine ⟨by simp [← hcount]; omega, List.nodup_reverse.mpr hnd, ?_⟩
      intro x hx
      exact hlt x (List.mem_reverse.mp hx)
    · rw [if_neg hc] at h
      simp only at h
      by_cases hb : used.testBit (nextIntOf (lcgNext seed) tp) = true
      · rw [if_pos hb] at h
        exact ih _ _ _ _ _ hinv hct h
      · rw [if_neg hb] at h
        have hposlt : nextIntOf (lcgNext seed) tp < tp :=
          nextIntOf_lt _ _ (lcgNext_lt seed) htp
        have hinv2 := loopInv_step tp count used acc _ hinv hposlt
          (Bool.not_eq_true _ ▸ hb)
        exact ih _ _ _ _ _ hinv2 (by omega) h

/-- The result of a smaller-target run is a prefix of the result of a
larger-target run from the same loop state. -/
theorem posLoop_take_run (tp target t2 : Nat) (ht : t2 ≤ target) :
    ∀ fuel seed count used acc l,
      count = acc.length → count ≤ t2 →
      posLoop tp target fuel seed count used acc = some l →
      posLoop tp t2 fuel seed count used acc = some (l.take t2) := by
  intro fuel
  induction fuel with
  | zero =>
    intro seed count used acc l hca hct h
    rw [posLoop] at h ⊢
    by_cases hc : target ≤ count
    · rw [if_pos hc] at h
      have hl : l = acc.reverse := (Option.some_injective _ h).symm
      rw [if_pos (by omega), hl, List.take_of_length_le (by simp; omega)]
    · rw [if_neg hc] at h
      exact absurd h (by simp)
  | succ fuel ih =>
    intro seed count used acc l hca hct h
    rw [posLoop] at h ⊢
    by_cases hc : target ≤ count
    · rw [if_pos hc] at h
      have hl : l = acc.reverse := (Option.some_injective _ h).symm
      rw [if_pos (by omega), hl, List.take_of_length_le (by simp; omega)]
    · rw [if_neg hc] at h
      simp only at h
      by_cases hc2 : t2 ≤ count
      · have ht2 : t2 = count := by omega
        rw [if_pos hc2]
        by_cases hb : used.testBit (nextIntOf (lcgNext seed) tp) = true
        · rw [if_pos hb] at h
          obtain ⟨ext, he⟩ := posLoop_extends tp target fuel _ count used acc l h
          rw [he, ht2, hca, ← List.length_reverse acc, List.take_left]
        · rw [if_neg hb] at h
          obtain ⟨ext, he⟩ := posLoop_extends tp target fuel _ (count + 1) _ _ l h
          have he2 : l = acc.reverse ++ (nextIntOf (lcgNext seed) tp :: ext) := by
            simpa using he
          rw [he2, ht2, hca, ← List.length_reverse acc, List.take_left]
      · rw [if_neg hc2]
        simp only
        by_cases hb : used.testBit (nextIntOf (lcgNext seed) tp) = true
        · rw [if_pos hb] at h ⊢
          exact ih _ count used acc l hca (by omega) h
        · rw [if_neg hb] at h ⊢
          exact ih _ (count + 1) _ _ l (by simp [hca]) (by omega) h

/-- More fuel does not change a successful run. -/
theorem posLoop_mono (tp target : Nat) :
    ∀ fuel fuel2 seed count used acc l, fuel ≤ fuel2 →
      posLoop tp target fuel seed count used acc = some l →
      posLoop tp target fuel2 seed count used acc = some l := by
  intro fuel
  induction fuel with
  | zero =>
    intro fuel2 seed count used acc l _ h
    rw [posLoop] at h
    by_cases hc : target ≤ count
    · rw [if_pos hc] at h
      cases fuel2 with
      | zero => rw [posLoop, if_pos hc]; exact h
      | succ fuel2 => rw [posLoop, if_pos hc]; exact h
    · rw [if_neg hc] at h
      exact absurd h (by simp)
  | succ fuel ih =>
    intro fuel2 seed count used acc l hle h
    rw [posLoop] at h
    cases fuel2 with
    | zero => omega
    | succ fuel2 =>
      rw [posLoop]
      by_cases hc : target ≤ count
      · rw [if_pos hc] at h ⊢
        exact h
      · rw [if_neg hc] at h ⊢
        simp only at h ⊢
        by_cases hb : used.testBit (nextIntOf (lcgNext seed) tp) = true
        · rw [if_pos hb] at h ⊢
          exact ih fuel2 _ count used acc l (by omega) h
        · rw [if_neg hb] at h ⊢
          exact ih fuel2 _ (count + 1) _ _ l (by omega) h

/-- Updating the bitmask keeps it the characteristic function of the
collected set. -/
theorem usedBit_insert (used pos : Nat) (acc : List Nat)
    (hbit : ∀ x, used.testBit x = true ↔ x ∈ acc) :
    ∀ x, (used ||| 1 <<< pos).testBit x = true ↔ x ∈ pos :: acc := by
  intro x
  rw [Nat.testBit_lor, Nat.one_shiftLeft, Nat.testBit_two_pow]
  constructor
  · intro h
    rcases Bool.or_eq_true_iff.mp h with h | h
    · exact List.mem_cons_of_mem pos ((hbit x).mp h)
    · exact (of_decide_eq_true h) ▸ List.mem_cons_self pos acc
  · intro h
    rcases List.mem_cons.mp h with h | h
    · simp [h]
    · simp [(hbit x).mpr h]

/-- When the target exceeds the number of values the generator can ever
produce, the loop never finishes: the `Set` deduplication caps the number
of collected positions at `(drawSet tp).card`. -/
theorem posLoop_none (tp target : Nat) (hbig : (drawSet tp).card < target) :
    ∀ fuel seed count used acc,
      count = acc.length → acc.Nodup → (∀ x ∈ acc, x ∈ drawSet tp) →
      (∀ x, used.testBit x = true ↔ x ∈ acc) →
      posLoop tp target fuel seed count used acc = none := by
  have hcount : ∀ (acc : List Nat), acc.Nodup → (∀ x ∈ acc, x ∈ drawSet tp) →
      acc.length ≤ (drawSet tp).card := by
    intro acc hnd hsub
    rw [← List.toFinset_card_of_nodup hnd]
    exact Finset.card_le_card (fun x hx => hsub x (List.mem_toFinset.mp hx))
  intro fuel
  induction fuel with
  | zero =>
    intro seed count used acc hca hnd hsub _
    rw [posLoop, if_neg ?_]
    have := hcount acc hnd hsub
    omega
  | succ fuel ih =>
    intro seed count used acc hca hnd hsub hbit
    have hnle : ¬ target ≤ count := by
      have := hcount acc hnd hsub
      omega
    rw [posLoop, if_neg hnle]
    simp only
    by_cases hb : used.testBit (nextIntOf (lcgNext seed) tp) = true
    · rw [if_pos hb]
      exact ih _ count used acc hca hnd hsub hbit
    · rw [if_neg hb]
      have hmemdraw : nextIntOf (lcgNext seed) tp ∈ drawSet tp := by
        apply Finset.mem_image.mpr
        exact ⟨lcgNext seed, Finset.mem_range.mpr (lcgNext_lt seed), rfl⟩
      have hnotmem : nextIntOf (lcgNext seed) tp ∉ acc := by
        intro hm
        simp [(hbit _).mpr hm] at hb
      refine ih _ (count + 1) _ _ (by simp [hca]) (List.nodup_cons.mpr ⟨hnotmem, hnd⟩) ?_
        (usedBit_insert used _ acc hbit)
      intro x hx
      rcases List.mem_cons.mp hx with h | h
      · exact h ▸ hmemdraw
      · exact hsub x h

/-! ## Facts about generatePixelPositions -/

theorem genPos_inner (w h d : Nat) (seed : List Nat) (fuel : Nat) (l : List Nat)
    (hg : generatePixelPositions w h d seed fuel = some (Except.ok l)) :
    32 + d * 8 ≤ w * h * 3 ∧
      posLoop (w * h) (32 + d * 8) fuel (seedFromString seed) 0 0 [] = some l := by
  unfold generatePixelPositions at hg
  by_cases hcap : w * h * 3 < 32 + d * 8
  · rw [if_pos hcap] at hg
    exact Except.noConfusion (Option.some_injective _ hg)
  · rw [if_neg hcap] at hg
    refine ⟨by omega, ?_⟩
    cases hpl : posLoop (w * h) (32 + d * 8) fuel (seedFromString seed) 0 0 [] with
    | none => rw [hpl] at hg; exact absurd hg (by simp)
    | some l2 =>
      rw [hpl] at hg
      simp only [Option.map] at hg
      have hl : l2 = l := Except.ok.inj (Option.some_injective _ hg)
      rw [hl]

theorem genPos_ok (w h d : Nat) (seed : List Nat) (fuel : Nat) (l : List Nat)
    (hg : generatePixelPositions w h d seed fuel = some (Except.ok l)) :
    l.length = 32 + d * 8 ∧ l.Nodup ∧ ∀ x ∈ l, x < w * h := by
  obtain ⟨hcap, hpl⟩ := genPos_inner w h d seed fuel l hg
  have htp : 0 < w * h := by omega
  exact posLoop_ok (w * h) (32 + d * 8) htp fuel _ 0 0 [] l (loopInv_init _)
    (by omega) hpl

theorem genPos_take_run (w h d d2 : Nat) (seed : List Nat) (fuel : Nat) (l : List Nat)
    (hd : d2 ≤ d)
    (hg : generatePixelPositions w h d seed fuel = some (Except.ok l)) :
    generatePixelPositions w h d2 seed fuel = some (Except.ok (l.take (32 + d2 * 8))) := by
  obtain ⟨hcap, hpl⟩ := genPos_inner w h d seed fuel l hg
  unfold generatePixelPositions
  rw [if_neg (by omega)]
  rw [posLoop_take_run (w * h) (32 + d * 8) (32 + d2 * 8) (by omega) fuel _ 0 0 [] l rfl
    (by omega) hpl]
  rfl

theorem drawSet_subset_range (tp : Nat) (htp : 0 < tp) :
    drawSet tp ⊆ Finset.range tp := by
  intro x hx
  obtain ⟨s, hs, hsx⟩ := Finset.mem_image.mp hx
  rw [Finset.mem_range]
  have := nextIntOf_lt s tp (Finset.mem_range.mp hs) htp
  unfold nextIntOf at this
  omega

/-! ## Claim theorems -/

/-- C2: at a payload whose bit count equals `3 * width * height` exactly
(width 16, height 1, dataLength 2: 48 bits = 3 * 16 pixels), the capacity
check passes but `generatePixelPositions` can never return - the loop
collects distinct pixel indices, of which only `width * height` exist, so
the run exhausts any amount of fuel (the browser would hang).  One more
byte (dataLength 3) throws CapacityExceeded before any pixel is written.
The claimed "succeeds at exactly 3 x width x height bits" is therefore
false on the code. -/
theorem C2_capacity_boundary :
    (∀ fuel, generatePixelPositions 16 1 2 [97] fuel = none) ∧
    (∀ fuel, generatePixelPositions 16 1 3 [97] fuel =
      some (Except.error "Image too small for data payload")) := by
  constructor
  · intro fuel
    unfold generatePixelPositions
    rw [if_neg (by norm_num)]
    have hcard : (drawSet 16).card < 48 := by
      have h1 : (drawSet 16).card ≤ 16 := by
        have := Finset.card_le_card (drawSet_subset_range 16 (by norm_num))
        simpa using this
      omega
    rw [posLoop_none 16 48 hcard fuel _ 0 0 [] rfl List.nodup_nil (by simp)
      (fun x => by simp [Nat.zero_testBit])]
    rfl
  · intro fuel
    rfl

/-- C3: prefix stability of the scheduler.  If the scheduler succeeds for
`n` payload bytes, then for any `m ≤ n` it succeeds with exactly the
first `32 + m * 8` positions of the same sequence; in particular the
extract-side 4-byte call (sliced to 32 entries) yields exactly the first
32 positions of the full-payload call. -/
theorem C3_prefix_stability (w h m n : Nat) (seed : List Nat) (fuel : Nat)
    (l : List Nat) (hmn : m ≤ n) (h4 : 4 ≤ n)
    (hg : generatePixelPositions w h n seed fuel = some (Except.ok l)) :
    generatePixelPositions w h m seed fuel =
      some (Except.ok (l.take (32 + m * 8))) ∧
    ∃ l4, generatePixelPositions w h 4 seed fuel = some (Except.ok l4) ∧
      l4.take 32 = l.take 32 := by
  refine ⟨genPos_take_run w h n m seed fuel l hmn hg, ?_⟩
  refine ⟨l.take (32 + 4 * 8), genPos_take_run w h n 4 seed fuel l h4 hg, ?_⟩
  rw [List.take_take]
  norm_num

theorem C3_prefix_stability_witness :
    (4 : Nat) ≤ 8 ∧
    generatePixelPositions 16 16 8 pwEx 500 = some (Except.ok psC3) ∧
    (generatePixelPositions 16 16 4 pwEx 500 =
        some (Except.ok (psC3.take (32 + 4 * 8))) ∧
      ∃ l4, generatePixelPositions 16 16 4 pwEx 500 = some (Except.ok l4) ∧
        l4.take 32 = psC3.take 32) :=
  ⟨by decide, by rfl,
   C3_prefix_stability 16 16 4 8 pwEx 500 psC3 (by decide) (by decide) (by rfl)⟩

/-- C5: packing the MSB-first bit expansion of any byte sequence back to
bytes is the identity: `bitsToData (dataToBits B) = B`. -/
theorem C5_codec_inverse (data : List Nat) (h : ∀ b ∈ data, b < 256) :
    bitsToData (dataToBits data) = data :=
  bitsToData_dataToBits data h

theorem C5_codec_inverse_witness :
    (∀ b ∈ [0, 137, 255], b < 256) ∧
      bitsToData (dataToBits [0, 137, 255]) = [0, 137, 255] :=
  ⟨by decide, C5_codec_inverse [0, 137, 255] (by decide)⟩

/-- C6: the position scheduler is deterministic: its output is a pure
function of `(width, height, dataLength, password)` (and the fuel bound);
the PRNG state is created afresh inside every call, so two calls with
identical arguments yield identical results. -/
theorem C6_scheduler_deterministic (w h d : Nat) (seed : List Nat) (fuel : Nat) :
    generatePixelPositions w h d seed fuel = generatePixelPositions w h d seed fuel :=
  rfl

/-- C7: the embedding loop writes only least-significant bits of R, G or
B channels at scheduled positions: the alpha channel of every pixel is
unchanged, the upper 7 bits of every channel are unchanged, and any cell
that is not a scheduled (pixel, channel) target is unchanged. -/
theorem C7_frame_effect (pixels : Nat → Nat) (bits ps : List Nat) (j : Nat)
    (hbits : ∀ b ∈ bits, b ≤ 1) (hpix : ∀ x, pixels x < 256) :
    (j % 4 = 3 → writeBits pixels bits ps 0 j = pixels j) ∧
    writeBits pixels bits ps 0 j / 2 = pixels j / 2 ∧
    ((∀ k, k < bits.length → k < ps.length → j ≠ ps.getD k 0 * 4 + k % 3) →
      writeBits pixels bits ps 0 j = pixels j) := by
  refine ⟨fun hj => writeBits_alpha bits ps 0 pixels j hj,
    writeBits_div_two bits ps 0 pixels hbits hpix j,
    fun hj => writeBits_unscheduled bits ps 0 pixels j ?_⟩
  intro k hk1 hk2
  simpa using hj k hk1 hk2

theorem C7_frame_effect_witness :
    ((3 % 4 = 3 → writeBits (fun _ => 200) [1, 0, 1] [5, 6, 7] 0 3 = (fun _ => 200) 3) ∧
      writeBits (fun _ => 200) [1, 0, 1] [5, 6, 7] 0 3 / 2 = (fun _ => 200) 3 / 2 ∧
      ((∀ k, k < (3 : Nat) → k < (3 : Nat) →
          (3 : Nat) ≠ ([5, 6, 7] : List Nat).getD k 0 * 4 + k % 3) →
        writeBits (fun _ => 200) [1, 0, 1] [5, 6, 7] 0 3 = (fun _ => 200) 3)) :=
  C7_frame_effect (fun _ => 200) [1, 0, 1] [5, 6, 7] 3 (by decide) (by intro x; show (200 : Nat) < 256; decide)

/-! ## Index bookkeeping helpers -/

theorem getD_take (l : List Nat) (n i : Nat) (h : i < n) :
    (l.take n).getD i 0 = l.getD i 0 := by
  induction l generalizing n i with
  | nil => simp
  | cons a t ih =>
    cases n with
    | zero => omega
    | succ n =>
      cases i with
      | zero => simp
      | succ i =>
        simp only [List.take_succ_cons, getD_cons_succ]
        exact ih n i (by omega)

theorem getD_drop (l : List Nat) (m i : Nat) :
    (l.drop m).getD i 0 = l.getD (m + i) 0 := by
  induction l generalizing m with
  | nil => simp
  | cons a t ih =>
    cases m with
    | zero => simp
    | succ m =>
      simp only [List.drop_succ_cons]
      rw [ih m]
      have : m + 1 + i = (m + i) + 1 := by omega
      rw [this, getD_cons_succ]

theorem map_range_getD (l : List Nat) (n : Nat) (h : n ≤ l.length) :
    (List.range n).map (fun i => l.getD i 0) = l.take n := by
  induction l generalizing n with
  | nil =>
    simp at h
    subst h
    simp
  | cons a t ih =>
    cases n with
    | zero => simp
    | succ n =>
      rw [List.range_succ_eq_map]
      simp only [List.map_cons, List.map_map, List.take_succ_cons]
      congr 1
      have := ih n (by simpa using Nat.lt_succ_iff.mp (Nat.lt_of_lt_of_le
        (Nat.lt_succ_of_le (Nat.le_refl n)) h))
      rw [← this]
      apply List.map_congr_left
      intro i _
      rfl

/-! ## u32be facts -/

theorem u32be_lt (v : Nat) : ∀ b ∈ u32be v, b < 256 := by
  intro b hb
  simp only [u32be, List.mem_cons] at hb
  rcases hb with h | h | h | h | h
  · omega
  · omega
  · omega
  · omega
  · simp at h

theorem u32be_length (v : Nat) : (u32be v).length = 4 := rfl

theorem u32be_decode (v : Nat) (hv : v < 2 ^ 32) :
    (u32be v).getD 0 0 * 2 ^ 24 + (u32be v).getD 1 0 * 2 ^ 16 +
      (u32be v).getD 2 0 * 2 ^ 8 + (u32be v).getD 3 0 = v := by
  show v / 2 ^ 24 % 256 * 2 ^ 24 + v / 2 ^ 16 % 256 * 2 ^ 16 +
    v / 2 ^ 8 % 256 * 2 ^ 8 + v % 256 = v
  omega

/-! ## Payload structure lemmas -/

theorem drop_append_len (l1 l2 : List Nat) (n i : Nat) (h : n = l1.length + i) :
    (l1 ++ l2).drop n = l2.drop i := by
  rw [h, List.drop_append]

theorem take_append_len (l1 l2 : List Nat) (n : Nat) (h : n = l1.length) :
    (l1 ++ l2).take n = l1 := by
  rw [h, List.take_left]

theorem getD_append_len (l1 l2 : List Nat) (n i : Nat) (h : n = l1.length + i) :
    (l1 ++ l2).getD n 0 = l2.getD i 0 := by
  rw [h]
  rw [List.getD_append_right l1 l2 0 _ (by omega)]
  congr 1
  omega

theorem buildPayload_length (enc : EncryptionResult)
    (hiv : enc.iv.length = 12) (hsalt : enc.salt.length = 16) :
    (buildPayload enc).length = 36 + enc.encryptedData.length + enc.hash.length := by
  simp [buildPayload, u32be, hiv, hsalt]
  omega

theorem buildPayload_bytes (enc : EncryptionResult)
    (hct : ∀ b ∈ enc.encryptedData, b < 256) (hivb : ∀ b ∈ enc.iv, b < 256)
    (hsaltb : ∀ b ∈ enc.salt, b < 256) (hhashb : ∀ b ∈ enc.hash, b < 256) :
    ∀ b ∈ buildPayload enc, b < 256 := by
  intro b hb
  simp only [buildPayload, List.mem_append] at hb
  rcases hb with ((((h | h) | h) | h) | h) | h
  · exact u32be_lt _ b h
  · exact hct b h
  · exact hivb b h
  · exact hsaltb b h
  · exact u32be_lt _ b h
  · exact hhashb b h

theorem parse_buildPayload (enc : EncryptionResult)
    (hiv : enc.iv.length = 12) (hsalt : enc.salt.length = 16)
    (hC : enc.encryptedData.length < 2 ^ 32) (hH : enc.hash.length < 2 ^ 32) :
    parsePayload (buildPayload enc) =
      Except.ok ⟨enc.encryptedData, enc.iv, enc.salt, enc.hash⟩ := by
  have hlen : (buildPayload enc).length =
      36 + enc.encryptedData.length + enc.hash.length :=
    buildPayload_length enc hiv hsalt
  have hpre0 : buildPayload enc = u32be enc.encryptedData.length ++
      (enc.encryptedData ++ (enc.iv ++ (enc.salt ++
        (u32be enc.hash.length ++ enc.hash)))) := by
    simp [buildPayload, List.append_assoc]
  have hpre1 : buildPayload enc = (u32be enc.encryptedData.length ++
      enc.encryptedData) ++ (enc.iv ++ (enc.salt ++
        (u32be enc.hash.length ++ enc.hash))) := by
    simp [buildPayload, List.append_assoc]
  have hpre2 : buildPayload enc = (u32be enc.encryptedData.length ++
      enc.encryptedData ++ enc.iv) ++ (enc.salt ++
        (u32be enc.hash.length ++ enc.hash)) := by
    simp [buildPayload, List.append_assoc]
  have hpre3 : buildPayload enc = (u32be enc.encryptedData.length ++
      enc.encryptedData ++ enc.iv ++ enc.salt) ++
        (u32be enc.hash.length ++ enc.hash) := by
    simp [buildPayload, List.append_assoc]
  have hpre4 : buildPayload enc = (u32be enc.encryptedData.length ++
      enc.encryptedData ++ enc.iv ++ enc.salt ++ u32be enc.hash.length) ++
        enc.hash := by
    simp [buildPayload, List.append_assoc]
  have hprelen : (u32be enc.encryptedData.length ++ enc.encryptedData ++
      enc.iv ++ enc.salt).length = 32 + enc.encryptedData.length := by
    simp [u32be, hiv, hsalt]
    omega
  have hread1 : readU32 (buildPayload enc) 0 =
      Except.ok enc.encryptedData.length := by
    unfold readU32
    rw [if_pos (by omega)]
    congr 1
    have g0 : (buildPayload enc).getD 0 0 =
        (u32be enc.encryptedData.length).getD 0 0 := by
      rw [hpre0]
      exact List.getD_append _ _ 0 0 (by simp [u32be])
    have g1 : (buildPayload enc).getD 1 0 =
        (u32be enc.encryptedData.length).getD 1 0 := by
      rw [hpre0]
      exact List.getD_append _ _ 0 1 (by simp [u32be])
    have g2 : (buildPayload enc).getD 2 0 =
        (u32be enc.encryptedData.length).getD 2 0 := by
      rw [hpre0]
      exact List.getD_append _ _ 0 2 (by simp [u32be])
    have g3 : (buildPayload enc).getD 3 0 =
        (u32be enc.encryptedData.length).getD 3 0 := by
      rw [hpre0]
      exact List.getD_append _ _ 0 3 (by simp [u32be])
    rw [g0, g1, g2, g3]
    exact u32be_decode _ hC
  have hread2 : readU32 (buildPayload enc) (32 + enc.encryptedData.length) =
      Except.ok enc.hash.length := by
    unfold readU32
    rw [if_pos (by omega)]
    congr 1
    have e0 : (buildPayload enc).getD (32 + enc.encryptedData.length) 0 =
        (u32be enc.hash.length).getD 0 0 := by
      rw [hpre3, getD_append_len _ _ _ 0 (by omega)]
      exact List.getD_append _ _ 0 0 (by simp [u32be])
    have e1 : (buildPayload enc).getD (32 + enc.encryptedData.length + 1) 0 =
        (u32be enc.hash.length).getD 1 0 := by
      rw [hpre3, getD_append_len _ _ _ 1 (by omega)]
      exact List.getD_append _ _ 0 1 (by simp [u32be])
    have e2 : (buildPayload enc).getD (32 + enc.encryptedData.length + 2) 0 =
        (u32be enc.hash.length).getD 2 0 := by
      rw [hpre3, getD_append_len _ _ _ 2 (by omega)]
      exact List.getD_append _ _ 0 2 (by simp [u32be])
    have e3 : (buildPayload enc).getD (32 + enc.encryptedData.length + 3) 0 =
        (u32be enc.hash.length).getD 3 0 := by
      rw [hpre3, getD_append_len _ _ _ 3 (by omega)]
      exact List.getD_append _ _ 0 3 (by simp [u32be])
    rw [e0, e1, e2, e3]
    exact u32be_decode _ hH
  unfold parsePayload
  simp only [hread1, hread2]
  congr 1
  have hslice1 : ((buildPayload enc).drop 4).take enc.encryptedData.length =
      enc.encryptedData := by
    rw [hpre0, drop_append_len _ _ 4 0 (by simp [u32be]), List.drop_zero]
    exact take_append_len _ _ _ rfl
  have hslice2 : ((buildPayload enc).drop (4 + enc.encryptedData.length)).take 12 =
      enc.iv := by
    rw [hpre1, drop_append_len _ _ _ 0 (by simp [u32be]; omega), List.drop_zero]
    exact take_append_len _ _ 12 hiv.symm
  have hslice3 : ((buildPayload enc).drop (16 + enc.encryptedData.length)).take 16 =
      enc.salt := by
    rw [hpre2, drop_append_len _ _ _ 0 (by simp [u32be, hiv]; omega), List.drop_zero]
    exact take_append_len _ _ 16 hsalt.symm
  have hslice4 : ((buildPayload enc).drop (36 + enc.encryptedData.length)).take
      enc.hash.length = enc.hash := by
    rw [hpre4, drop_append_len _ _ _ 0 (by simp [u32be, hiv, hsalt]; omega),
      List.drop_zero]
    exact List.take_of_length_le (by omega)
  rw [hslice1, hslice2, hslice3, hslice4]

/-! ## Embedding pipeline lemmas -/

theorem embed_inner (pixels : Nat → Nat) (w h : Nat) (enc : EncryptionResult)
    (pw : List Nat) (fuel : Nat) (pixels2 : Nat → Nat)
    (hemb : embedDataInImage pixels w h enc pw fuel = some (Except.ok pixels2)) :
    ∃ ps, generatePixelPositions w h (buildPayload enc).length pw fuel =
        some (Except.ok ps) ∧
      pixels2 = writeBits pixels
        (dataToBits (u32be (buildPayload enc).length) ++ dataToBits (buildPayload enc))
        ps 0 := by
  unfold embedDataInImage at hemb
  dsimp only at hemb
  cases hg : generatePixelPositions w h (buildPayload enc).length pw fuel with
  | none =>
    rw [hg] at hemb
    exact absurd hemb (by simp)
  | some r =>
    cases r with
    | error e =>
      rw [hg] at hemb
      exact Except.noConfusion (Option.some_injective _ hemb)
    | ok ps =>
      rw [hg] at hemb
      exact ⟨ps, rfl, (Except.ok.inj (Option.some_injective _ hemb)).symm⟩

theorem extract_of_embed (pixels : Nat → Nat) (w h : Nat) (enc : EncryptionResult)
    (pw : List Nat) (fuel : Nat) (pixels2 : Nat → Nat)
    (hpix : ∀ x, pixels x < 256)
    (hiv : enc.iv.length = 12) (hsalt : enc.salt.length = 16)
    (hct : ∀ b ∈ enc.encryptedData, b < 256) (hivb : ∀ b ∈ enc.iv, b < 256)
    (hsaltb : ∀ b ∈ enc.salt, b < 256) (hhashb : ∀ b ∈ enc.hash, b < 256)
    (hlen : (buildPayload enc).length < 2 ^ 32)
    (hemb : embedDataInImage pixels w h enc pw fuel = some (Except.ok pixels2)) :
    extractDataFromImage pixels2 w h pw fuel =
      some (Except.ok ⟨enc.encryptedData, enc.iv, enc.salt, enc.hash⟩) := by
  obtain ⟨ps, hg, hpe⟩ := embed_inner pixels w h enc pw fuel pixels2 hemb
  have hL36 : (buildPayload enc).length =
      36 + enc.encryptedData.length + enc.hash.length :=
    buildPayload_length enc hiv hsalt
  obtain ⟨hplen, hnd, hplt⟩ :=
    genPos_ok w h (buildPayload enc).length pw fuel ps hg
  have hablen : (dataToBits (u32be (buildPayload enc).length) ++
      dataToBits (buildPayload enc)).length = 32 + (buildPayload enc).length * 8 := by
    rw [List.length_append, dataToBits_length, dataToBits_length, u32be_length]
    omega
  have hable : ∀ b ∈ dataToBits (u32be (buildPayload enc).length) ++
      dataToBits (buildPayload enc), b ≤ 1 := by
    intro b hb
    rcases List.mem_append.mp hb with hb | hb
    · exact dataToBits_le_one _ b hb
    · exact dataToBits_le_one _ b hb
  have hlen32 : (dataToBits (u32be (buildPayload enc).length)).length = 32 := by
    rw [dataToBits_length, u32be_length]
  have hpseq : ps.length = (dataToBits (u32be (buildPayload enc).length) ++
      dataToBits (buildPayload enc)).length := by
    rw [hablen, hplen]
  have hread : ∀ k, k < 32 + (buildPayload enc).length * 8 →
      extractBit (pixels2 (ps.getD k 0 * 4 + k % 3)) =
        (dataToBits (u32be (buildPayload enc).length) ++
          dataToBits (buildPayload enc)).getD k 0 := by
    intro k hk
    rw [hpe, extractBit_eq_mod]
    have := writeBits_readback
      (dataToBits (u32be (buildPayload enc).length) ++ dataToBits (buildPayload enc))
      ps 0 pixels k (by omega) hpseq hnd hable hpix
    simpa using this
  have hg4 : generatePixelPositions w h 4 pw fuel =
      some (Except.ok (ps.take (32 + 4 * 8))) :=
    genPos_take_run w h (buildPayload enc).length 4 pw fuel ps (by omega) hg
  unfold extractDataFromImage
  rw [hg4]
  dsimp only
  have htt : (ps.take (32 + 4 * 8)).take 32 = ps.take 32 := by
    rw [List.take_take]
    norm_num
  rw [htt]
  have hmap1 : (List.range 32).map
      (fun i => extractBit (pixels2 ((ps.take 32).getD i 0 * 4 + i % 3))) =
      dataToBits (u32be (buildPayload enc).length) := by
    have hstep : (List.range 32).map
        (fun i => extractBit (pixels2 ((ps.take 32).getD i 0 * 4 + i % 3))) =
        (List.range 32).map (fun i =>
          (dataToBits (u32be (buildPayload enc).length) ++
            dataToBits (buildPayload enc)).getD i 0) := by
      apply List.map_congr_left
      intro i hi
      have hi32 : i < 32 := List.mem_range.mp hi
      rw [getD_take ps 32 i hi32]
      exact hread i (by omega)
    rw [hstep]
    have h2 : (List.range 32).map (fun i =>
        (dataToBits (u32be (buildPayload enc).length) ++
          dataToBits (buildPayload enc)).getD i 0) =
        ((dataToBits (u32be (buildPayload enc).length) ++
          dataToBits (buildPayload enc)).take 32) := by
      apply map_range_getD
      rw [hablen]
      omega
    rw [h2]
    exact take_append_len _ _ 32 hlen32.symm
  rw [hmap1]
  have hpack : bitsToData (dataToBits (u32be (buildPayload enc).length)) =
      u32be (buildPayload enc).length :=
    bitsToData_dataToBits _ (u32be_lt _)
  rw [hpack]
  rw [u32be_decode _ hlen]
  rw [hg]
  dsimp only
  have hmap2 : (List.range ((buildPayload enc).length * 8)).map
      (fun k => extractBit (pixels2 (ps.getD (32 + k) 0 * 4 + (32 + k) % 3))) =
      dataToBits (buildPayload enc) := by
    have hstep : (List.range ((buildPayload enc).length * 8)).map
        (fun k => extractBit (pixels2 (ps.getD (32 + k) 0 * 4 + (32 + k) % 3))) =
        (List.range ((buildPayload enc).length * 8)).map (fun k =>
          (dataToBits (u32be (buildPayload enc).length) ++
            dataToBits (buildPayload enc)).getD (32 + k) 0) := by
      apply List.map_congr_left
      intro k hk
      have hkr : k < (buildPayload enc).length * 8 := List.mem_range.mp hk
      exact hread (32 + k) (by omega)
    rw [hstep]
    have hstep2 : (List.range ((buildPayload enc).length * 8)).map (fun k =>
        (dataToBits (u32be (buildPayload enc).length) ++
          dataToBits (buildPayload enc)).getD (32 + k) 0) =
        (List.range ((buildPayload enc).length * 8)).map (fun k =>
          (dataToBits (buildPayload enc)).getD k 0) := by
      apply List.map_congr_left
      intro k _
      rw [getD_append_len _ _ (32 + k) k (by rw [hlen32])]
    rw [hstep2]
    have h3 : (List.range ((buildPayload enc).length * 8)).map (fun k =>
        (dataToBits (buildPayload enc)).getD k 0) =
        (dataToBits (buildPayload enc)).take ((buildPayload enc).length * 8) := by
      apply map_range_getD
      rw [dataToBits_length]
      omega
    rw [h3]
    apply List.take_of_length_le
    rw [dataToBits_length]
    omega
  rw [hmap2]
  have hpack2 : bitsToData (dataToBits (buildPayload enc)) = buildPayload enc :=
    bitsToData_dataToBits _ (buildPayload_bytes enc hct hivb hsaltb hhashb)
  rw [hpack2]
  rw [parse_buildPayload enc hiv hsalt (by omega) (by omega)]

/-- C1: round trip.  For every envelope (message ciphertext, IV, salt,
hash), password and cover image for which embedding succeeds, extracting
from the produced image with the same password recovers exactly the
embedded envelope, and `decryptMessage` (with the AES-GCM and SHA-256
primitives abstracted, assuming decryption of the genuine envelope under
the correct password returns the original message and the carried hash
is the hash of that message) returns exactly the original message with
verified status `true`. -/
theorem C1_roundtrip (pixels : Nat → Nat) (w h : Nat) (enc : EncryptionResult)
    (pw msg : List Nat) (fuel : Nat) (pixels2 : Nat → Nat)
    (dec : List Nat → List Nat → List Nat → List Nat → Option (List Nat))
    (hashFn : List Nat → List Nat)
    (hpix : ∀ x, pixels x < 256)
    (hiv : enc.iv.length = 12) (hsalt : enc.salt.length = 16)
    (hct : ∀ b ∈ enc.encryptedData, b < 256) (hivb : ∀ b ∈ enc.iv, b < 256)
    (hsaltb : ∀ b ∈ enc.salt, b < 256) (hhashb : ∀ b ∈ enc.hash, b < 256)
    (hlen : (buildPayload enc).length < 2 ^ 32)
    (hdec : dec enc.encryptedData enc.iv enc.salt pw = some msg)
    (hhash : hashFn msg = enc.hash)
    (hemb : embedDataInImage pixels w h enc pw fuel = some (Except.ok pixels2)) :
    extractDataFromImage pixels2 w h pw fuel =
      some (Except.ok ⟨enc.encryptedData, enc.iv, enc.salt, enc.hash⟩) ∧
    decryptMessage dec hashFn enc.encryptedData enc.iv enc.salt pw enc.hash =
      ⟨msg, true, enc.hash⟩ := by
  refine ⟨extract_of_embed pixels w h enc pw fuel pixels2 hpix hiv hsalt hct hivb
    hsaltb hhashb hlen hemb, ?_⟩
  unfold decryptMessage
  rw [hdec]
  dsimp only
  rw [hhash]
  simp

theorem C1_roundtrip_witness :
    extractDataFromImage pixEx 64 64 pwEx 600 =
      some (Except.ok ⟨encEx.encryptedData, encEx.iv, encEx.salt, encEx.hash⟩) ∧
    decryptMessage decEx hashEx encEx.encryptedData encEx.iv encEx.salt pwEx
      encEx.hash = ⟨[], true, encEx.hash⟩ :=
  C1_roundtrip covEx 64 64 encEx pwEx [] 600 pixEx decEx hashEx
    (by intro x; show (255 : Nat) < 256; decide)
    (by decide) (by decide) (by decide) (by decide) (by decide) (by decide)
    (by decide) (by decide) (by decide) (by rfl)

/-- C4 counterexample: for the envelope `encEx` (ciphertext length
C = 0, hash length H = 0) the value written as the 32-bit length header
is the total payload length 36, not `32 + C + H = 32`. -/
theorem C4_counterexample :
    (buildPayload encEx).length ≠
      32 + encEx.encryptedData.length + encEx.hash.length := by decide

/-- C4 amended: the 32-bit big-endian length header embedded before the
payload equals `36 + C + H` (the total payload byte length
`4 + C + 12 + 16 + 4 + H`), not `32 + C + H`: on a successful embed the
bit stream written starts with the bits of `u32be (36 + C + H)`. -/
theorem C4_header_value (pixels : Nat → Nat) (w h : Nat) (enc : EncryptionResult)
    (pw : List Nat) (fuel : Nat) (pixels2 : Nat → Nat)
    (hiv : enc.iv.length = 12) (hsalt : enc.salt.length = 16)
    (hemb : embedDataInImage pixels w h enc pw fuel = some (Except.ok pixels2)) :
    (buildPayload enc).length =
      36 + enc.encryptedData.length + enc.hash.length ∧
    ∃ ps, generatePixelPositions w h (buildPayload enc).length pw fuel =
        some (Except.ok ps) ∧
      pixels2 = writeBits pixels
        (dataToBits (u32be (36 + enc.encryptedData.length + enc.hash.length)) ++
          dataToBits (buildPayload enc)) ps 0 := by
  have hL := buildPayload_length enc hiv hsalt
  obtain ⟨ps, hg, hpe⟩ := embed_inner pixels w h enc pw fuel pixels2 hemb
  refine ⟨hL, ps, hg, ?_⟩
  rw [← hL]
  exact hpe

theorem C4_header_value_witness :
    (buildPayload encEx).length =
      36 + encEx.encryptedData.length + encEx.hash.length ∧
    ∃ ps, generatePixelPositions 64 64 (buildPayload encEx).length pwEx 600 =
        some (Except.ok ps) ∧
      pixEx = writeBits covEx
        (dataToBits (u32be (36 + encEx.encryptedData.length + encEx.hash.length)) ++
          dataToBits (buildPayload encEx)) ps 0 :=
  C4_header_value covEx 64 64 encEx pwEx 600 pixEx (by decide) (by decide) (by rfl)

set_option maxHeartbeats 4000000 in
/-- C8 counterexample: embedding the envelope `encEx` under password
"P1" and extracting with the different password "P2" does not result in
an authentication failure: the garbage length header read under "P2"
decodes to a value whose bit count exceeds capacity, so extraction
aborts with the capacity error and the decryption step is never
reached. -/
theorem C8_counterexample :
    pwEx ≠ pw2Ex ∧
    embedDataInImage covEx 64 64 encEx pwEx 600 = some (Except.ok pixEx) ∧
    extractDataFromImage pixEx 64 64 pw2Ex 600 =
      some (Except.error "Image too small for data payload") :=
  ⟨by decide, by rfl, by rfl⟩

/-- C8 amended: extraction with a wrong password never returns any
plaintext.  Whenever extraction succeeds in recovering an envelope, the
decryption step reports an authentication failure with empty plaintext
(given the spec-modelled AES-GCM property that decryption under the
wrong password always fails); extraction may also abort earlier (for
example with a capacity error on a garbage header, see the
counterexample) instead of reaching the authentication step. -/
theorem C8_wrong_password_no_plaintext (pixels : Nat → Nat) (w h : Nat)
    (pw2 : List Nat) (fuel : Nat)
    (dec : List Nat → List Nat → List Nat → List Nat → Option (List Nat))
    (hashFn : List Nat → List Nat)
    (hdec : ∀ ct iv salt, dec ct iv salt pw2 = none)
    (d : ExtractedData)
    (_hex : extractDataFromImage pixels w h pw2 fuel = some (Except.ok d)) :
    decryptMessage dec hashFn d.encryptedData d.iv d.salt pw2 d.hash =
      ⟨[], false, []⟩ := by
  unfold decryptMessage
  rw [hdec]

set_option maxHeartbeats 4000000 in
theorem C8_wrong_password_no_plaintext_witness :
    decryptMessage decNone hashEx [] (List.replicate 12 0) (List.replicate 16 0)
      pwEx [] = ⟨[], false, []⟩ :=
  C8_wrong_password_no_plaintext simpleStego 64 64 pwEx 600 decNone hashEx
    (fun _ _ _ => rfl) ⟨[], List.replicate 12 0, List.replicate 16 0, []⟩
    (by rfl)

/-- C9 counterexample: a payload whose hash-length field (5) exceeds the
remaining buffer (0 bytes) does not make extraction fail: deserialization
returns success with the hash silently truncated to the available bytes
(the empty string), a result built from the truncated buffer. -/
theorem C9_counterexample :
    readU32 overHashPayload 32 = Except.ok 5 ∧
    overHashPayload.length = 36 ∧
    parsePayload overHashPayload =
      Except.ok ⟨[], List.replicate 12 0, List.replicate 16 0, []⟩ := by
  refine ⟨by rfl, by decide, by rfl⟩

/-- C9 amended: only the ciphertext-length field is effectively
validated: if it exceeds the remaining buffer, deserialization fails via
the caught out-of-bounds `RangeError` of the following u32 read (not via
a dedicated MalformedPayload check); the hash-length field is never
validated, and every slice silently clamps to the available bytes. -/
theorem C9_length_field_validation (payload : List Nat) :
    (∀ c, readU32 payload 0 = Except.ok c → payload.length < 36 + c →
      parsePayload payload = Except.error "RangeError") ∧
    (∀ c hl, readU32 payload 0 = Except.ok c →
      readU32 payload (32 + c) = Except.ok hl →
      parsePayload payload = Except.ok
        ⟨(payload.drop 4).take c, (payload.drop (4 + c)).take 12,
          (payload.drop (16 + c)).take 16, (payload.drop (36 + c)).take hl⟩) := by
  constructor
  · intro c h1 hsmall
    unfold parsePayload
    have h2 : readU32 payload (32 + c) = Except.error "RangeError" := by
      unfold readU32
      rw [if_neg (by omega)]
    simp only [h1, h2]
  · intro c hl h1 h2
    unfold parsePayload
    simp only [h1, h2]

theorem C9_length_field_validation_witness :
    parsePayload overCtPayload = Except.error "RangeError" ∧
    parsePayload overHashPayload = Except.ok
      ⟨(overHashPayload.drop 4).take 0, (overHashPayload.drop 4).take 12,
        (overHashPayload.drop 16).take 16, (overHashPayload.drop 36).take 5⟩ :=
  ⟨(C9_length_field_validation overCtPayload).1 50 (by rfl) (by decide),
   (C9_length_field_validation overHashPayload).2 0 5 (by rfl) (by rfl)⟩

/-! ## Period of the linear congruential generator -/

theorem lcgT_geom (n : Nat) : 1664524 * lcgT n + 1 = 1664525 ^ n := by
  induction n with
  | zero => rfl
  | succ n ih =>
    rw [lcgT, pow_succ]
    rw [← ih]
    ring

theorem lcgT_parity (n : Nat) : lcgT n % 2 = n % 2 := by
  induction n with
  | zero => rfl
  | succ n ih =>
    rw [lcgT]
    omega

theorem lcg_pow_mod_four (m : Nat) : 1664525 ^ m % 4 = 1 := by
  induction m with
  | zero => rfl
  | succ m ih =>
    rw [pow_succ, Nat.mul_mod, ih]

theorem lcgT_double (m : Nat) : lcgT (2 * m) = lcgT m * (1664525 ^ m + 1) := by
  have key : ∀ x y : Nat, 1664524 * x + 1 = 1664524 * y + 1 → x = y := by
    intro x y hxy
    have := Nat.add_right_cancel hxy
    exact Nat.eq_of_mul_eq_mul_left (by norm_num) this
  apply key
  rw [lcgT_geom]
  have hgm := lcgT_geom m
  have h2 : 1 ≤ 1664525 ^ m := Nat.one_le_pow m _ (by norm_num)
  obtain ⟨B, hB⟩ : ∃ B, 1664525 ^ m = B + 1 := ⟨1664525 ^ m - 1, by omega⟩
  have h1 : 1664524 * lcgT m = B := by omega
  have h3 : 1664525 ^ (2 * m) = (B + 1) * (B + 1) := by
    rw [two_mul, pow_add, hB]
  rw [h3, hB]
  subst h1
  ring

theorem lcgT_not_dvd (k : Nat) :
    ∀ n, 0 < n → n < 2 ^ k → ¬ (2 ^ k ∣ lcgT n) := by
  induction k with
  | zero =>
    intro n hn hnk
    omega
  | succ k ih =>
    intro n hn hnk hdvd
    rcases Nat.even_or_odd n with he | ho
    · obtain ⟨m, hm⟩ := he
      have hm2 : n = 2 * m := by omega
      have hmpos : 0 < m := by omega
      have hmlt : m < 2 ^ k := by
        rw [pow_succ] at hnk
        omega
      rw [hm2, lcgT_double] at hdvd
      have hA := lcg_pow_mod_four m
      obtain ⟨u, hu⟩ : ∃ u, 1664525 ^ m + 1 = 2 * u := ⟨(1664525 ^ m + 1) / 2, by omega⟩
      have huodd : u % 2 = 1 := by omega
      rw [hu] at hdvd
      have hdvd2 : 2 ^ k ∣ lcgT m * u := by
        have h1 : 2 ^ (k + 1) = 2 * 2 ^ k := by rw [pow_succ]; ring
        rw [h1] at hdvd
        have h2 : lcgT m * (2 * u) = 2 * (lcgT m * u) := by ring
        rw [h2] at hdvd
        exact (mul_dvd_mul_iff_left (a := 2) (by norm_num)).mp hdvd
      have hcop : Nat.Coprime (2 ^ k) u := by
        apply Nat.Coprime.pow_left
        rw [Nat.coprime_two_left]
        exact Nat.odd_iff.mpr huodd
      exact ih m hmpos hmlt (hcop.dvd_of_dvd_mul_right hdvd2)
    · have hodd : lcgT n % 2 = 1 := by
        rw [lcgT_parity]
        exact Nat.odd_iff.mp ho
      have h2 : (2 : Nat) ∣ lcgT n := by
        refine dvd_trans ?_ hdvd
        exact dvd_pow_self 2 (by omega)
      omega

theorem lcgNext_iterate_lt (s n : Nat) (hn : 0 < n) : lcgNext^[n] s < 2 ^ 32 := by
  obtain ⟨m, rfl⟩ : ∃ m, n = m + 1 := ⟨n - 1, by omega⟩
  rw [Function.iterate_succ_apply']
  exact lcgNext_lt _

theorem lcgNext_iterate_formula (n : Nat) :
    ∀ s, s < 2 ^ 32 →
      lcgNext^[n] s = (1664525 ^ n * s + 1013904223 * lcgT n) % 2 ^ 32 := by
  induction n with
  | zero =>
    intro s hs
    simp [lcgT]
    omega
  | succ n ih =>
    intro s hs
    rw [Function.iterate_succ_apply', ih s hs]
    unfold lcgNext
    rw [Nat.add_mod, Nat.mod_mul_mod, ← Nat.add_mod]
    have harg : (1664525 ^ n * s + 1013904223 * lcgT n) * 1664525 + 1013904223 =
        1664525 ^ (n + 1) * s + 1013904223 * lcgT (n + 1) := by
      rw [lcgT, pow_succ]
      ring
    rw [harg]

theorem lcgNext_no_short_cycle (s n : Nat) (hs : s < 2 ^ 32) (hn : 0 < n)
    (hnM : n < 2 ^ 32) : lcgNext^[n] s ≠ s := by
  intro heq
  rw [lcgNext_iterate_formula n s hs] at heq
  have hsplit : 1664525 ^ n * s + 1013904223 * lcgT n =
      lcgT n * (1664524 * s + 1013904223) + s := by
    rw [← lcgT_geom n]
    ring
  rw [hsplit] at heq
  have hdvd : 2 ^ 32 ∣ lcgT n * (1664524 * s + 1013904223) := by
    have hmod : (lcgT n * (1664524 * s + 1013904223) + s) % 2 ^ 32 = s % 2 ^ 32 := by
      rw [heq, Nat.mod_eq_of_lt hs]
    have : lcgT n * (1664524 * s + 1013904223) % 2 ^ 32 = 0 := by
      rw [Nat.add_mod] at hmod
      omega
    exact Nat.dvd_of_mod_eq_zero this
  have hodd : (1664524 * s + 1013904223) % 2 = 1 := by omega
  have hcop : Nat.Coprime (2 ^ 32) (1664524 * s + 1013904223) := by
    apply Nat.Coprime.pow_left
    rw [Nat.coprime_two_left]
    exact Nat.odd_iff.mpr hodd
  exact lcgT_not_dvd 32 n hn hnM (hcop.dvd_of_dvd_mul_right hdvd)

theorem lcg_orbit_surjective (s0 t : Nat) (ht : t < 2 ^ 32) :
    ∃ i, i < 2 ^ 32 ∧ lcgNext^[i + 1] s0 = t := by
  have key : ∀ i j : Fin (2 ^ 32), i.1 < j.1 →
      lcgNext^[i.1 + 1] s0 ≠ lcgNext^[j.1 + 1] s0 := by
    intro i j hlt heq
    have hx : lcgNext^[i.1 + 1] s0 < 2 ^ 32 :=
      lcgNext_iterate_lt s0 (i.1 + 1) (by omega)
    have h1 : (j.1 - i.1) + (i.1 + 1) = j.1 + 1 := by omega
    have h2 : lcgNext^[j.1 - i.1] (lcgNext^[i.1 + 1] s0) = lcgNext^[i.1 + 1] s0 := by
      rw [← Function.iterate_add_apply, h1, ← heq]
    exact lcgNext_no_short_cycle _ (j.1 - i.1) hx (by omega)
      (by have := j.2; omega) h2
  have hinj : Function.Injective (fun i : Fin (2 ^ 32) =>
      (⟨lcgNext^[i.1 + 1] s0, lcgNext_iterate_lt s0 (i.1 + 1) (by omega)⟩ :
        Fin (2 ^ 32))) := by
    intro i j heq
    have hval : lcgNext^[i.1 + 1] s0 = lcgNext^[j.1 + 1] s0 := by
      have := congrArg Fin.val heq
      simpa using this
    rcases Nat.lt_trichotomy i.1 j.1 with hlt | heqv | hgt
    · exact absurd hval (key i j hlt)
    · exact Fin.ext heqv
    · exact absurd hval.symm (key j i hgt)
  have hsurj := Finite.injective_iff_surjective.mp hinj
  obtain ⟨i, hi⟩ := hsurj ⟨t, ht⟩
  refine ⟨i.1, i.2, ?_⟩
  have := congrArg Fin.val hi
  simpa using this

theorem nextIntOf_surjective (tp t : Nat) (ht : t < tp) (htp : tp ≤ 2 ^ 32) :
    ∃ s, s < 2 ^ 32 ∧ nextIntOf s tp = t := by
  have htp0 : 0 < tp := by omega
  refine ⟨(t * 2 ^ 32 + (tp - 1)) / tp, ?_, ?_⟩
  · have hdm := Nat.div_add_mod (t * 2 ^ 32 + (tp - 1)) tp
    have hr := Nat.mod_lt (t * 2 ^ 32 + (tp - 1)) htp0
    have hmul : tp * ((t * 2 ^ 32 + (tp - 1)) / tp) < tp * 2 ^ 32 := by omega
    exact Nat.lt_of_mul_lt_mul_left hmul
  · unfold nextIntOf
    have hdm := Nat.div_add_mod (t * 2 ^ 32 + (tp - 1)) tp
    have hr := Nat.mod_lt (t * 2 ^ 32 + (tp - 1)) htp0
    have hc2 : ((t * 2 ^ 32 + (tp - 1)) / tp) * tp =
        tp * ((t * 2 ^ 32 + (tp - 1)) / tp) := Nat.mul_comm _ _
    apply Nat.div_eq_of_lt_le
    · omega
    · omega

theorem lcg_draw_hits (s0 tp t : Nat) (ht : t < tp) (htp : tp ≤ 2 ^ 32) :
    ∃ i, i < 2 ^ 32 ∧ nextIntOf (lcgNext^[i + 1] s0) tp = t := by
  obtain ⟨s, hs, hst⟩ := nextIntOf_surjective tp t ht htp
  obtain ⟨i, hi, hit⟩ := lcg_orbit_surjective s0 s hs
  exact ⟨i, hi, by rw [hit]; exact hst⟩

theorem posLoop_done (tp target fuel seed count used : Nat) (acc : List Nat)
    (hc : target ≤ count) :
    posLoop tp target fuel seed count used acc = some acc.reverse := by
  cases fuel with
  | zero => rw [posLoop, if_pos hc]
  | succ fuel => rw [posLoop, if_pos hc]

theorem posLoop_window (tp target : Nat) :
    ∀ i fuel seed count used acc,
      LoopInv tp count used acc → count < target → target ≤ tp → i < fuel →
      nextIntOf (lcgNext^[i + 1] seed) tp ∉ acc →
      (∃ l, posLoop tp target fuel seed count used acc = some l) ∨
      (∃ j seed2 count2 used2 acc2, j ≤ i + 1 ∧ j ≤ fuel ∧
        posLoop tp target fuel seed count used acc =
          posLoop tp target (fuel - j) seed2 count2 used2 acc2 ∧
        LoopInv tp count2 used2 acc2 ∧ count < count2) := by
  intro i
  induction i with
  | zero =>
    intro fuel seed count used acc hinv hct htt hif hfresh
    obtain ⟨f, rfl⟩ : ∃ f, fuel = f + 1 := ⟨fuel - 1, by omega⟩
    rw [Function.iterate_one] at hfresh
    right
    have htp : 0 < tp := by omega
    have hbitf : used.testBit (nextIntOf (lcgNext seed) tp) = false := by
      rcases Bool.eq_false_or_eq_true (used.testBit (nextIntOf (lcgNext seed) tp))
        with hb | hb
      · exact absurd ((hinv.2.2.2 _).mp hb) hfresh
      · exact hb
    refine ⟨1, lcgNext seed, count + 1, used ||| 1 <<< nextIntOf (lcgNext seed) tp,
      nextIntOf (lcgNext seed) tp :: acc, by omega, by omega, ?_, ?_, by omega⟩
    · rw [posLoop, if_neg (by omega)]
      simp only [hbitf]
      rfl
    · exact loopInv_step tp count used acc _ hinv
        (nextIntOf_lt _ _ (lcgNext_lt seed) htp) hbitf
  | succ i ih =>
    intro fuel seed count used acc hinv hct htt hif hfresh
    obtain ⟨f, rfl⟩ : ∃ f, fuel = f + 1 := ⟨fuel - 1, by omega⟩
    have htp : 0 < tp := by omega
    by_cases hmem : nextIntOf (lcgNext seed) tp ∈ acc
    · have hbitt : used.testBit (nextIntOf (lcgNext seed) tp) = true :=
        (hinv.2.2.2 _).mpr hmem
      have hstep : posLoop tp target (f + 1) seed count used acc =
          posLoop tp target f (lcgNext seed) count used acc := by
        rw [posLoop, if_neg (by omega)]
        simp only [hbitt]
        rfl
      have hfresh2 : nextIntOf (lcgNext^[i + 1] (lcgNext seed)) tp ∉ acc := by
        rw [← Function.iterate_succ_apply]
        exact hfresh
      rcases ih f (lcgNext seed) count used acc hinv hct htt (by omega) hfresh2 with
        ⟨l, hl⟩ | ⟨j, seed2, count2, used2, acc2, hj1, hj2, heq, hinv2, hcg⟩
      · exact Or.inl ⟨l, by rw [hstep]; exact hl⟩
      · refine Or.inr ⟨j + 1, seed2, count2, used2, acc2, by omega, by omega, ?_,
          hinv2, hcg⟩
        rw [hstep, heq]
        congr 1
        omega
    · have hbitf : used.testBit (nextIntOf (lcgNext seed) tp) = false := by
        rcases Bool.eq_false_or_eq_true (used.testBit (nextIntOf (lcgNext seed) tp))
          with hb | hb
        · exact absurd ((hinv.2.2.2 _).mp hb) hmem
        · exact hb
      refine Or.inr ⟨1, lcgNext seed, count + 1,
        used ||| 1 <<< nextIntOf (lcgNext seed) tp,
        nextIntOf (lcgNext seed) tp :: acc, by omega, by omega, ?_, ?_, by omega⟩
      · rw [posLoop, if_neg (by omega)]
        simp only [hbitf]
        rfl
      · exact loopInv_step tp count used acc _ hinv
          (nextIntOf_lt _ _ (lcgNext_lt seed) htp) hbitf

theorem posLoop_exists_fuel (tp target : Nat) (htp : tp ≤ 2 ^ 32) (htt : target ≤ tp) :
    ∀ k seed count used acc, LoopInv tp count used acc → target ≤ count + k →
      ∃ l, posLoop tp target (k * 2 ^ 32) seed count used acc = some l := by
  intro k
  induction k with
  | zero =>
    intro seed count used acc hinv hck
    exact ⟨acc.reverse, posLoop_done tp target _ seed count used acc (by omega)⟩
  | succ k ih =>
    intro seed count used acc hinv hck
    by_cases hc : target ≤ count
    · exact ⟨acc.reverse, posLoop_done tp target _ seed count used acc hc⟩
    · have hex : ∃ t, t < tp ∧ t ∉ acc := by
        by_contra hno
        push_neg at hno
        have hsub : Finset.range tp ⊆ acc.toFinset := by
          intro x hx
          exact List.mem_toFinset.mpr (hno x (Finset.mem_range.mp hx))
        have hcard := Finset.card_le_card hsub
        rw [Finset.card_range, List.toFinset_card_of_nodup hinv.2.1] at hcard
        have hca := hinv.1
        omega
      obtain ⟨t, htlt, htna⟩ := hex
      obtain ⟨i, hiM, hhit⟩ := lcg_draw_hits seed tp t htlt htp
      have hfresh : nextIntOf (lcgNext^[i + 1] seed) tp ∉ acc := by
        rw [hhit]
        exact htna
      rcases posLoop_window tp target i ((k + 1) * 2 ^ 32) seed count used acc hinv
        (by omega) htt (by omega) hfresh with
        ⟨l, hl⟩ | ⟨j, seed2, count2, used2, acc2, hj1, hj2, heq, hinv2, hcg⟩
      · exact ⟨l, hl⟩
      · obtain ⟨l, hl⟩ := ih seed2 count2 used2 acc2 hinv2 (by omega)
        refine ⟨l, ?_⟩
        rw [heq]
        exact posLoop_mono tp target (k * 2 ^ 32) ((k + 1) * 2 ^ 32 - j) seed2 count2
          used2 acc2 l (by omega) hl

theorem genPos_terminates (w h d : Nat) (seed : List Nat)
    (hcap : 32 + d * 8 ≤ w * h) (hwh : w * h ≤ 2 ^ 32) :
    ∃ fuel l, generatePixelPositions w h d seed fuel = some (Except.ok l) := by
  obtain ⟨l, hl⟩ := posLoop_exists_fuel (w * h) (32 + d * 8) hwh hcap (32 + d * 8)
    (seedFromString seed) 0 0 [] (loopInv_init _) (by omega)
  refine ⟨(32 + d * 8) * 2 ^ 32, l, ?_⟩
  unfold generatePixelPositions
  rw [if_neg (by omega), hl]
  rfl

/-- C10 counterexample: the claim's hypothesis `32 + dataLength * 8 <=
width * height` is not sufficient for termination.  For a (hypothetical)
image with `2 ^ 32 + 64` pixels and `dataLength = 2 ^ 29 + 4` the
hypothesis holds, but the generator state lives modulo `2 ^ 32`, so at
most `2 ^ 32` distinct positions can ever be drawn, fewer than the
`2 ^ 32 + 64` needed: the loop never finishes, for any amount of fuel. -/
theorem C10_counterexample :
    32 + (2 ^ 29 + 4) * 8 ≤ (2 ^ 32 + 64) * 1 ∧
    ∀ fuel, generatePixelPositions (2 ^ 32 + 64) 1 (2 ^ 29 + 4) [97] fuel = none := by
  refine ⟨by norm_num, ?_⟩
  intro fuel
  unfold generatePixelPositions
  rw [if_neg (by norm_num)]
  have hcard : (drawSet ((2 ^ 32 + 64) * 1)).card < 32 + (2 ^ 29 + 4) * 8 := by
    have h1 : (drawSet ((2 ^ 32 + 64) * 1)).card ≤ (Finset.range (2 ^ 32)).card :=
      Finset.card_image_le
    rw [Finset.card_range] at h1
    norm_num at h1 ⊢
    omega
  rw [posLoop_none ((2 ^ 32 + 64) * 1) (32 + (2 ^ 29 + 4) * 8) hcard fuel _ 0 0 []
    rfl List.nodup_nil (by simp) (fun x => by simp [Nat.zero_testBit])]
  rfl

/-- C10 amended: with the additional (always true for real images)
hypothesis `width * height ≤ 2 ^ 32`, the scheduler terminates: some
fuel bound suffices for `generatePixelPositions` to return, and the
returned sequence has exactly `32 + dataLength * 8` entries, pairwise
distinct, each in `[0, width * height)`.  The termination argument uses
the full period `2 ^ 32` of the LCG `s := (s * 1664525 + 1013904223) mod
2 ^ 32`. -/
theorem C10_scheduler_terminates (w h d : Nat) (seed : List Nat)
    (hcap : 32 + d * 8 ≤ w * h) (hwh : w * h ≤ 2 ^ 32) :
    ∃ fuel l, generatePixelPositions w h d seed fuel = some (Except.ok l) ∧
      l.length = 32 + d * 8 ∧ l.Nodup ∧ ∀ x ∈ l, x < w * h := by
  obtain ⟨fuel, l, hl⟩ := genPos_terminates w h d seed hcap hwh
  obtain ⟨h1, h2, h3⟩ := genPos_ok w h d seed fuel l hl
  exact ⟨fuel, l, hl, h1, h2, h3⟩

theorem C10_scheduler_terminates_witness :
    32 + 1 * 8 ≤ 8 * 8 ∧ 8 * 8 ≤ 2 ^ 32 ∧
    ∃ fuel l, generatePixelPositions 8 8 1 [97] fuel = some (Except.ok l) ∧
      l.length = 32 + 1 * 8 ∧ l.Nodup ∧ ∀ x ∈ l, x < 8 * 8 :=
  ⟨by decide, by decide,
   C10_scheduler_terminates 8 8 1 [97] (by decide) (by decide)⟩
